/-
Verification of the ankyloGo admission-control core (arryllopez/ankylosaur).

Shallow embedding of the rate-limiting algorithms (sliding window log,
lazy-refill token bucket), the in-memory and Redis-backed stores, the
risk-scoring engine, and the policy-composition middleware, together with
theorems settling the specification claims.

Time is modelled as integer timestamps: `Int` Unix seconds for the sliding
window (mirroring `now.Unix()`), `Nat` monotonic ticks for the token bucket
and risk engine (Go's monotonic clock never runs backwards, so elapsed
times are non-negative).
-/
import Mathlib

/-! ## Sliding window limiter (sliding_window.go, src/unnamed/part_002) -/

structure SlidingWindowLimiter where
  window : Int
  limit : Int
  /-- request-timestamp log, front = oldest (container/list used as a deque) -/
  logs : List Int
  deriving DecidableEq, Repr

def NewSlidingWindowLimiter (window : Int) (limit : Int) : SlidingWindowLimiter :=
  { window := window, limit := limit, logs := [] }

/-- The eviction loop of `Allow`: repeatedly remove the front entry while it is
strictly before the edge time, stopping at the first retained entry. -/
def evictOld (cutoff : Int) : List Int → List Int
  | [] => []
  | t :: rest => if t < cutoff then evictOld cutoff rest else t :: rest

/-- `SlidingWindowLimiter.Allow` from sliding_window.go: compute the cutoff
`now - window`, evict outdated logs from the front, then admit (pushing `now`
onto the back) iff the remaining count is strictly below the limit. -/
def SlidingWindowLimiter.Allow (sw : SlidingWindowLimiter) (now : Int) :
    Bool × SlidingWindowLimiter :=
  let edgeTime := now - sw.window
  let logs := evictOld edgeTime sw.logs
  if (logs.length : Int) < sw.limit then
    (true, { sw with logs := logs ++ [now] })
  else
    (false, { sw with logs := logs })

/-! Supporting lemmas about eviction. -/

theorem evictOld_of_sorted (cutoff : Int) :
    ∀ l : List Int, l.Pairwise (· ≤ ·) →
      evictOld cutoff l = l.filter (fun t => decide (cutoff ≤ t)) := by
  intro l hl
  induction l with
  | nil => rfl
  | cons a rest ih =>
    rcases List.pairwise_cons.mp hl with ⟨ha, hrest⟩
    by_cases hcut : a < cutoff
    · simp only [evictOld, if_pos hcut, List.filter_cons]
      have : ¬ cutoff ≤ a := not_le.mpr hcut
      simp [this, ih hrest]
    · simp only [evictOld, if_neg hcut, List.filter_cons]
      have hca : cutoff ≤ a := not_lt.mp hcut
      have hrestf : rest.filter (fun t => decide (cutoff ≤ t)) = rest := by
        apply List.filter_eq_self.mpr
        intro b hb
        exact decide_eq_true (le_trans hca (ha b hb))
      simp [hca, hrestf]

/-! ## Token bucket with lazy refill (token_bucket.go, src/unnamed/part_002) -/

structure TokenBucket where
  tokens : Int
  capacity : Int
  tokensPerInterval : Int
  refillRate : Nat
  lastRefill : Nat
  deriving DecidableEq, Repr

/-- `NewTokenBucket`: the bucket starts full (`tokens = capacity`) with
`lastRefill` set to the creation instant. -/
def NewTokenBucket (capacity tokensPerInterval : Int) (refillRate now : Nat) :
    TokenBucket :=
  { tokens := capacity, capacity := capacity,
    tokensPerInterval := tokensPerInterval,
    refillRate := refillRate, lastRefill := now }

/-- The lazy-refill phase at the top of `TakeTokens`: when both `refillRate`
and `tokensPerInterval` are positive and at least one full interval elapsed,
add `intervals * tokensPerInterval` tokens, cap at capacity, and move
`lastRefill` to `now`; otherwise leave the bucket untouched. -/
def TokenBucket.refill (tb : TokenBucket) (now : Nat) : TokenBucket :=
  let elapsed := now - tb.lastRefill
  if 0 < tb.refillRate ∧ 0 < tb.tokensPerInterval then
    let intervals := elapsed / tb.refillRate
    if 0 < intervals then
      let t := tb.tokens + (intervals : Int) * tb.tokensPerInterval
      let t := if tb.capacity < t then tb.capacity else t
      { tb with tokens := t, lastRefill := now }
    else tb
  else tb

/-- `TokenBucket.TakeTokens`: lazily refill from elapsed time, then consume
one token when available (returning `true`), else return `false`. -/
def TokenBucket.TakeTokens (tb : TokenBucket) (now : Nat) : Bool × TokenBucket :=
  let tb1 := tb.refill now
  if 0 < tb1.tokens then (true, { tb1 with tokens := tb1.tokens - 1 })
  else (false, tb1)

/-- `n` consecutive `TakeTokens` calls at one instant; the Bool is the
conjunction of all the individual results. -/
def takeAll (tb : TokenBucket) (now : Nat) : Nat → Bool × TokenBucket
  | 0 => (true, tb)
  | n + 1 =>
    let r := tb.TakeTokens now
    let rest := takeAll r.2 now n
    (r.1 && rest.1, rest.2)

/-- A `TakeTokens` call at each time of the list, returning every result. -/
def takeSeq (tb : TokenBucket) : List Nat → List Bool × TokenBucket
  | [] => ([], tb)
  | t :: ts =>
    let r := tb.TakeTokens t
    let rest := takeSeq r.2 ts
    (r.1 :: rest.1, rest.2)

/-- The refill phase does nothing at `now`: either refill is disabled by the
parameters, or no full interval has elapsed. -/
def refillInert (tb : TokenBucket) (now : Nat) : Prop :=
  0 < tb.refillRate ∧ 0 < tb.tokensPerInterval →
    (now - tb.lastRefill) / tb.refillRate = 0

theorem refill_eq_of_inert (tb : TokenBucket) (now : Nat)
    (h : refillInert tb now) : tb.refill now = tb := by
  unfold TokenBucket.refill
  by_cases hg : 0 < tb.refillRate ∧ 0 < tb.tokensPerInterval
  · simp [hg, h hg]
  · simp [hg]

theorem takeAll_drain (now : Nat) :
    ∀ (n : Nat) (tb : TokenBucket), refillInert tb now → (n : Int) ≤ tb.tokens →
      takeAll tb now n = (true, { tb with tokens := tb.tokens - n }) := by
  intro n
  induction n with
  | zero => intro tb _ _; simp [takeAll]
  | succ n ih =>
    intro tb hinert htok
    have hpos : 0 < tb.tokens := by
      have : ((n + 1 : Nat) : Int) = (n : Int) + 1 := by push_cast; ring
      omega
    have hstep : tb.TakeTokens now = (true, { tb with tokens := tb.tokens - 1 }) := by
      unfold TokenBucket.TakeTokens
      rw [refill_eq_of_inert tb now hinert]
      simp [hpos]
    have hinert' : refillInert { tb with tokens := tb.tokens - 1 } now := hinert
    have htok' : (n : Int) ≤ tb.tokens - 1 := by
      have : ((n + 1 : Nat) : Int) = (n : Int) + 1 := by push_cast; ring
      omega
    simp only [takeAll, hstep, ih _ hinert' htok']
    have hsub : tb.tokens - 1 - (n : Int) = tb.tokens - ((n + 1 : Nat) : Int) := by
      push_cast; ring
    simp [hsub]

theorem takeTokens_empty (tb : TokenBucket) (now : Nat)
    (hinert : refillInert tb now) (htok : tb.tokens ≤ 0) :
    tb.TakeTokens now = (false, tb) := by
  unfold TokenBucket.TakeTokens
  rw [refill_eq_of_inert tb now hinert]
  simp [not_lt.mpr htok]

theorem takeAll_add (now : Nat) :
    ∀ (m : Nat) (n : Nat) (tb : TokenBucket),
      takeAll tb now (m + n) =
        ((takeAll tb now m).1 && (takeAll (takeAll tb now m).2 now n).1,
         (takeAll (takeAll tb now m).2 now n).2) := by
  intro m
  induction m with
  | zero => intro n tb; simp [takeAll]
  | succ m ih =>
    intro n tb
    have hsa : m + 1 + n = (m + n) + 1 := by omega
    rw [hsa]
    simp only [takeAll, ih n]
    simp [Bool.and_assoc]

theorem refillInert_after (tb : TokenBucket) (now : Nat) :
    refillInert (tb.refill now) now := by
  by_cases hg : 0 < tb.refillRate ∧ 0 < tb.tokensPerInterval
  · by_cases hi : 0 < (now - tb.lastRefill) / tb.refillRate
    · have h1 : (tb.refill now).lastRefill = now ∧
          (tb.refill now).refillRate = tb.refillRate := by
        unfold TokenBucket.refill
        rw [if_pos hg, if_pos hi]
        exact ⟨rfl, rfl⟩
      intro _
      rw [h1.1, h1.2]
      simp
    · have h1 : tb.refill now = tb := by
        unfold TokenBucket.refill
        rw [if_pos hg, if_neg hi]
      rw [h1]
      intro _
      exact Nat.eq_zero_of_not_pos hi
  · have h1 : tb.refill now = tb := by
      unfold TokenBucket.refill
      rw [if_neg hg]
    rw [h1]
    intro h
    exact absurd h hg

theorem takeTokens_refill (tb : TokenBucket) (now : Nat) :
    tb.TakeTokens now = (tb.refill now).TakeTokens now := by
  unfold TokenBucket.TakeTokens
  rw [refill_eq_of_inert (tb.refill now) now (refillInert_after tb now)]

theorem takeAll_succ_refill (tb : TokenBucket) (now n : Nat) :
    takeAll tb now (n + 1) = takeAll (tb.refill now) now (n + 1) := by
  simp only [takeAll, takeTokens_refill tb now]

/-- C5: a new token bucket starts with `capacity` tokens; the first admit
succeeds for any `capacity ≥ 1`; `capacity` immediate admits all succeed and
the next one fails; and after `k` full refill intervals the lazy-refill
formula restores `min(capacity, k·tokensPerInterval)` tokens, exactly that
many further admits succeed, and the next one fails. -/
theorem tokenBucket_capacity_refill_contract
    (c tpi rate t0 k : Nat) (hc : 0 < c) (hrate : 0 < rate) (htpi : 0 < tpi) :
    (NewTokenBucket (c : Int) (tpi : Int) rate t0).tokens = (c : Int) ∧
    ((NewTokenBucket (c : Int) (tpi : Int) rate t0).TakeTokens t0).1 = true ∧
    (takeAll (NewTokenBucket (c : Int) (tpi : Int) rate t0) t0 c).1 = true ∧
    (takeAll (NewTokenBucket (c : Int) (tpi : Int) rate t0) t0 (c + 1)).1 = false ∧
    (((takeAll (NewTokenBucket (c : Int) (tpi : Int) rate t0) t0 c).2).refill
        (t0 + k * rate)).tokens = ((min c (k * tpi) : Nat) : Int) ∧
    (takeAll ((takeAll (NewTokenBucket (c : Int) (tpi : Int) rate t0) t0 c).2)
        (t0 + k * rate) (min c (k * tpi))).1 = true ∧
    (takeAll ((takeAll (NewTokenBucket (c : Int) (tpi : Int) rate t0) t0 c).2)
        (t0 + k * rate) (min c (k * tpi) + 1)).1 = false := by
  have hinert0 : refillInert (NewTokenBucket (c : Int) (tpi : Int) rate t0) t0 := by
    intro _
    simp [NewTokenBucket]
  have hcInt : (0 : Int) < (c : Int) := by exact_mod_cast hc
  have hdrain : takeAll (NewTokenBucket (c : Int) (tpi : Int) rate t0) t0 c =
      (true, { tokens := 0, capacity := (c : Int), tokensPerInterval := (tpi : Int),
               refillRate := rate, lastRefill := t0 }) := by
    rw [takeAll_drain t0 c _ hinert0 (by simp [NewTokenBucket])]
    simp [NewTokenBucket]
  have hE_inert : refillInert
      ({ tokens := 0, capacity := (c : Int), tokensPerInterval := (tpi : Int),
         refillRate := rate, lastRefill := t0 } : TokenBucket) t0 := by
    intro _
    simp
  refine ⟨rfl, ?_, ?_, ?_, ?_⟩
  · unfold TokenBucket.TakeTokens
    rw [refill_eq_of_inert _ _ hinert0]
    simp [NewTokenBucket, hcInt]
  · rw [hdrain]
  · rw [takeAll_add t0 c 1, hdrain]
    simp [takeAll,
      takeTokens_empty _ t0 hE_inert (le_refl (0 : Int))]
  · rw [hdrain]
    rcases Nat.eq_zero_or_pos k with hk | hk
    · subst hk
      simp only [Nat.zero_mul, Nat.add_zero, Nat.mul_zero, Nat.min_zero]
      refine ⟨?_, rfl, ?_⟩
      · rw [refill_eq_of_inert _ _ hE_inert]
        simp
      · simp [takeAll,
          takeTokens_empty _ t0 hE_inert (le_refl (0 : Int))]
    · have htpiInt : (0 : Int) < (tpi : Int) := by exact_mod_cast htpi
      have helapsed : (t0 + k * rate) - t0 = k * rate := by omega
      have hintv : (k * rate) / rate = k := Nat.mul_div_cancel k hrate
      have hrefill :
          ({ tokens := 0, capacity := (c : Int), tokensPerInterval := (tpi : Int),
             refillRate := rate, lastRefill := t0 } : TokenBucket).refill (t0 + k * rate)
          = { tokens := ((min c (k * tpi) : Nat) : Int), capacity := (c : Int),
              tokensPerInterval := (tpi : Int), refillRate := rate,
              lastRefill := t0 + k * rate } := by
        unfold TokenBucket.refill
        simp only [helapsed, hintv]
        rw [if_pos ⟨hrate, htpiInt⟩, if_pos hk]
        have hkt : ((k * tpi : Nat) : Int) = (k : Int) * (tpi : Int) := by
          push_cast; ring
        have : (if (c : Int) < 0 + (k : Int) * (tpi : Int) then (c : Int)
                else 0 + (k : Int) * (tpi : Int)) = ((min c (k * tpi) : Nat) : Int) := by
          rw [Nat.cast_min, hkt]
          simp only [zero_add]
          rcases lt_or_ge ((c : Int)) ((k : Int) * (tpi : Int)) with h | h
          · rw [if_pos h, min_eq_left (le_of_lt h)]
          · rw [if_neg (not_lt.mpr h), min_eq_right h]
        rw [this]
      have hinert2 : refillInert
          ({ tokens := ((min c (k * tpi) : Nat) : Int), capacity := (c : Int),
              tokensPerInterval := (tpi : Int), refillRate := rate,
              lastRefill := t0 + k * rate } : TokenBucket) (t0 + k * rate) := by
        intro _
        simp
      have hm : 0 < min c (k * tpi) := by
        have : 0 < k * tpi := Nat.mul_pos hk htpi
        omega
      obtain ⟨m', hm'⟩ : ∃ m', min c (k * tpi) = m' + 1 :=
        ⟨min c (k * tpi) - 1, by omega⟩
      have hdrain2 : takeAll
          ({ tokens := 0, capacity := (c : Int), tokensPerInterval := (tpi : Int),
             refillRate := rate, lastRefill := t0 } : TokenBucket)
          (t0 + k * rate) (min c (k * tpi)) =
          (true, { tokens := 0, capacity := (c : Int), tokensPerInterval := (tpi : Int),
                   refillRate := rate, lastRefill := t0 + k * rate }) := by
        rw [hm', takeAll_succ_refill, hrefill, ← hm']
        rw [takeAll_drain (t0 + k * rate) (min c (k * tpi)) _ hinert2 (le_of_eq rfl)]
        simp
      refine ⟨by rw [hrefill], ?_, ?_⟩
      · rw [hdrain2]
      · rw [takeAll_add (t0 + k * rate) (min c (k * tpi)) 1, hdrain2]
        have hfin := takeTokens_empty
          ({ tokens := 0, capacity := (c : Int), tokensPerInterval := (tpi : Int),
             refillRate := rate, lastRefill := t0 + k * rate } : TokenBucket)
          (t0 + k * rate) (by intro _; simp) (le_refl (0 : Int))
        simp [takeAll, hfin]

/-- Witness for `tokenBucket_capacity_refill_contract` at the spec's concrete
scenario: capacity 3, 2 tokens per interval, refill every 1 time unit; 3
immediate admits succeed, the 4th fails; after one interval `min(3, 2) = 2`
more succeed and a 3rd fails. -/
theorem tokenBucket_capacity_refill_contract_witness :
    0 < 3 ∧ 0 < 1 ∧ 0 < 2 ∧
    (takeAll (NewTokenBucket (3 : Int) (2 : Int) 1 0) 0 3).1 = true ∧
    (takeAll (NewTokenBucket (3 : Int) (2 : Int) 1 0) 0 4).1 = false ∧
    (takeAll ((takeAll (NewTokenBucket (3 : Int) (2 : Int) 1 0) 0 3).2)
        (0 + 1 * 1) (min 3 (1 * 2))).1 = true ∧
    (takeAll ((takeAll (NewTokenBucket (3 : Int) (2 : Int) 1 0) 0 3).2)
        (0 + 1 * 1) (min 3 (1 * 2) + 1)).1 = false := by
  have h := tokenBucket_capacity_refill_contract 3 2 1 0 1
    (by decide) (by decide) (by decide)
  exact ⟨by decide, by decide, by decide, h.2.2.1, h.2.2.2.1, h.2.2.2.2.2.1,
    h.2.2.2.2.2.2⟩

theorem takeSeq_drain :
    ∀ (ts : List Nat) (tb : TokenBucket),
      ¬(0 < tb.refillRate ∧ 0 < tb.tokensPerInterval) →
      (takeSeq tb ts).1 =
        (List.range ts.length).map (fun i : Nat => decide ((i : Int) < tb.tokens)) := by
  intro ts
  induction ts with
  | nil => intro tb _; rfl
  | cons t ts ih =>
    intro tb hdis
    have hrefl : tb.refill t = tb := by
      unfold TokenBucket.refill
      rw [if_neg hdis]
    have hsplit : (takeSeq tb (t :: ts)).1 =
        (tb.TakeTokens t).1 :: (takeSeq (tb.TakeTokens t).2 ts).1 := rfl
    rw [hsplit, List.length_cons, List.range_succ_eq_map, List.map_cons,
      List.map_map]
    by_cases hpos : 0 < tb.tokens
    · have hstep : tb.TakeTokens t = (true, { tb with tokens := tb.tokens - 1 }) := by
        unfold TokenBucket.TakeTokens
        rw [hrefl]
        simp [hpos]
      rw [hstep]
      refine List.cons_eq_cons.mpr ⟨by simp [hpos], ?_⟩
      refine Eq.trans (ih _ hdis) ?_
      apply List.map_congr_left
      intro i _
      simp only [Function.comp_apply]
      rw [decide_eq_decide]
      push_cast
      omega
    · have hstep : tb.TakeTokens t = (false, tb) := by
        unfold TokenBucket.TakeTokens
        rw [hrefl]
        simp [hpos]
      rw [hstep]
      refine List.cons_eq_cons.mpr ⟨by simp [hpos], ?_⟩
      refine Eq.trans (ih _ hdis) ?_
      apply List.map_congr_left
      intro i _
      simp only [Function.comp_apply]
      rw [decide_eq_decide]
      push_cast
      omega

/-- C6: with `tokensPerInterval = 0` or `refillRate = 0` the refill phase is
a no-op, construction still yields a full bucket, and a sequence of
`TakeTokens` calls at arbitrary times admits exactly the initially available
`capacity` tokens (call `i` succeeds iff `i < capacity`) before returning
`false` forever. -/
theorem tokenBucket_refill_disabled (c : Nat) (tpi : Int) (rate t0 : Nat)
    (times : List Nat) (h : tpi = 0 ∨ rate = 0) :
    (NewTokenBucket (c : Int) tpi rate t0).tokens = (c : Int) ∧
    (∀ now : Nat, (NewTokenBucket (c : Int) tpi rate t0).refill now
        = NewTokenBucket (c : Int) tpi rate t0) ∧
    (takeSeq (NewTokenBucket (c : Int) tpi rate t0) times).1 =
      (List.range times.length).map (fun i => decide (i < c)) := by
  have hdis : ¬(0 < (NewTokenBucket (c : Int) tpi rate t0).refillRate ∧
      0 < (NewTokenBucket (c : Int) tpi rate t0).tokensPerInterval) := by
    rcases h with h | h <;> simp [NewTokenBucket, h]
  refine ⟨rfl, ?_, ?_⟩
  · intro now
    unfold TokenBucket.refill
    rw [if_neg hdis]
  · rw [takeSeq_drain times _ hdis]
    apply List.map_congr_left
    intro i _
    rw [decide_eq_decide]
    exact Nat.cast_lt

/-- Witness for `tokenBucket_refill_disabled`: capacity 1 with
`tokensPerInterval = 0` admits its single initial token and then denies,
with no refill at either call time. -/
theorem tokenBucket_refill_disabled_witness :
    ((0 : Int) = 0 ∨ (5 : Nat) = 0) ∧
    (takeSeq (NewTokenBucket (1 : Int) 0 5 0) [3, 9]).1 =
      (List.range 2).map (fun i => decide (i < 1)) := by
  have h := tokenBucket_refill_disabled 1 0 5 0 [3, 9] (Or.inl rfl)
  exact ⟨Or.inl rfl, h.2.2⟩

/-! ## Claim C4: sliding-window eviction and admission -/

/-- C4 (amended): on each `Allow` call with `cutoff = now - window`, over a
time-ordered log exactly the entries with `timestamp < cutoff` are evicted —
an entry with timestamp equal to the boundary is *retained* (the eviction
comparison is strict `Before`) — the request is admitted iff the count of
remaining entries is strictly less than `limit`, and `now` is appended only
on admission; a denied request inserts nothing. -/
theorem slidingWindow_allow_characterization (sw : SlidingWindowLimiter)
    (now : Int) (hsorted : sw.logs.Pairwise (· ≤ ·)) :
    (sw.Allow now).1 =
      decide (((sw.logs.filter
        (fun t => decide (now - sw.window ≤ t))).length : Int) < sw.limit) ∧
    (sw.Allow now).2.logs =
      sw.logs.filter (fun t => decide (now - sw.window ≤ t)) ++
        (if (sw.Allow now).1 then [now] else []) ∧
    (sw.Allow now).2.window = sw.window ∧
    (sw.Allow now).2.limit = sw.limit := by
  simp only [SlidingWindowLimiter.Allow, evictOld_of_sorted _ _ hsorted]
  set kept := sw.logs.filter (fun t => decide (now - sw.window ≤ t)) with hkept
  by_cases hadm : (kept.length : Int) < sw.limit
  · rw [if_pos hadm]
    exact ⟨(decide_eq_true hadm).symm, by simp, rfl, rfl⟩
  · rw [if_neg hadm]
    exact ⟨(decide_eq_false hadm).symm, by simp, rfl, rfl⟩

/-- Counterexample to C4 as stated: the claim's tie-break says an entry
whose timestamp equals the boundary (`timestamp = cutoff`) is evicted, which
would leave the window empty and admit the request below. In the code the
boundary entry is retained: with `window = 10`, `limit = 1`, one logged
entry at time `0`, and `now = 10` (so `cutoff = 0`), the call is denied and
the entry is still in the log. -/
theorem slidingWindow_boundary_counterexample :
    (SlidingWindowLimiter.Allow ⟨10, 1, [0]⟩ 10).1 = false ∧
    (SlidingWindowLimiter.Allow ⟨10, 1, [0]⟩ 10).2.logs = [0] := by
  constructor
  · rfl
  · rfl

/-- Witness for `slidingWindow_allow_characterization`: a sorted two-entry
log at `window = 10`, `limit = 2`, `now = 12`; both entries survive the
cutoff `2`, so the call is denied and the log is unchanged. -/
theorem slidingWindow_allow_characterization_witness :
    ([3, 7] : List Int).Pairwise (· ≤ ·) ∧
    (SlidingWindowLimiter.Allow ⟨10, 2, [3, 7]⟩ 12).1 = false ∧
    (SlidingWindowLimiter.Allow ⟨10, 2, [3, 7]⟩ 12).2.logs = [3, 7] := by
  have h := slidingWindow_allow_characterization ⟨10, 2, [3, 7]⟩ 12
    (by decide)
  refine ⟨by decide, ?_, ?_⟩
  · rw [h.1]
    decide
  · rw [h.2.1, h.1]
    decide

/-! ## Redis-backed store (redis_store.go, src/unnamed/part_008)

The remote `Eval` round trip is external to the process; each operation is
embedded as a function of the call's outcome: `Except.error` is the
`err != nil` branch, `Except.ok r` is a script reply `r`. -/

/-- `RedisStore.AllowedSlidingWindow` result handling: on an `Eval` error the
request is admitted (fail open); otherwise admit iff the script returned 1. -/
def RedisStore.AllowedSlidingWindow (evalResult : Except String Int) : Bool :=
  match evalResult with
  | .error _ => true
  | .ok result => result == 1

/-- `RedisStore.AllowedTokenBucket` result handling: same fail-open shape. -/
def RedisStore.AllowedTokenBucket (evalResult : Except String Int) : Bool :=
  match evalResult with
  | .error _ => true
  | .ok result => result == 1

/-- C7: whenever the remote-store call fails, both Redis-backed operations
return `true` (fail open); a store error is never surfaced as a denial. -/
theorem redisStore_fails_open (e : String) :
    RedisStore.AllowedSlidingWindow (Except.error e) = true ∧
    RedisStore.AllowedTokenBucket (Except.error e) = true :=
  ⟨rfl, rfl⟩

/-! ## In-memory store (memory_store.go, src/unnamed/part_009, part_010) -/

structure MemoryStore where
  bucketPerIp : String → Option TokenBucket
  slidingWindowPerIP : String → Option SlidingWindowLimiter

def NewMemoryStore : MemoryStore :=
  { bucketPerIp := fun _ => none, slidingWindowPerIP := fun _ => none }

/-- `MemoryStore.AllowedSlidingWindow`: look up the per-key limiter, creating
one from the passed parameters only when the key is absent (`LoadOrStore`),
then delegate to `Allow` and store the updated limiter. -/
def MemoryStore.AllowedSlidingWindow (m : MemoryStore) (ip : String)
    (window limit now : Int) : Bool × MemoryStore :=
  let slideWindow :=
    match m.slidingWindowPerIP ip with
    | some sw => sw
    | none => NewSlidingWindowLimiter window limit
  let r := slideWindow.Allow now
  (r.1, { m with slidingWindowPerIP :=
      fun k => if k = ip then some r.2 else m.slidingWindowPerIP k })

/-- `MemoryStore.AllowedTokenBucket`: same lazy per-key creation for the
token bucket. -/
def MemoryStore.AllowedTokenBucket (m : MemoryStore) (ip : String)
    (capacity tokensPerInterval : Int) (refillRate now : Nat) :
    Bool × MemoryStore :=
  let bucketToken :=
    match m.bucketPerIp ip with
    | some tb => tb
    | none => NewTokenBucket capacity tokensPerInterval refillRate now
  let r := bucketToken.TakeTokens now
  (r.1, { m with bucketPerIp :=
      fun k => if k = ip then some r.2 else m.bucketPerIp k })

theorem allowedSlidingWindow_ignores_params (m : MemoryStore) (ip : String)
    (sw : SlidingWindowLimiter) (h : m.slidingWindowPerIP ip = some sw)
    (w l w' l' now : Int) :
    m.AllowedSlidingWindow ip w l now = m.AllowedSlidingWindow ip w' l' now := by
  unfold MemoryStore.AllowedSlidingWindow
  rw [h]

theorem allowedTokenBucket_ignores_params (m : MemoryStore) (ip : String)
    (tb : TokenBucket) (h : m.bucketPerIp ip = some tb)
    (c tpi c' tpi' : Int) (r r' now : Nat) :
    m.AllowedTokenBucket ip c tpi r now = m.AllowedTokenBucket ip c' tpi' r' now := by
  unfold MemoryStore.AllowedTokenBucket
  rw [h]

theorem allowedSlidingWindow_lookup_some (m : MemoryStore) (ip : String)
    (w l now : Int) :
    ∃ sw, (m.AllowedSlidingWindow ip w l now).2.slidingWindowPerIP ip = some sw := by
  unfold MemoryStore.AllowedSlidingWindow
  exact ⟨((match m.slidingWindowPerIP ip with
    | some sw => sw
    | none => NewSlidingWindowLimiter w l).Allow now).2, by simp⟩

theorem allowedTokenBucket_lookup_some (m : MemoryStore) (ip : String)
    (c tpi : Int) (r now : Nat) :
    ∃ tb, (m.AllowedTokenBucket ip c tpi r now).2.bucketPerIp ip = some tb := by
  unfold MemoryStore.AllowedTokenBucket
  exact ⟨((match m.bucketPerIp ip with
    | some tb => tb
    | none => NewTokenBucket c tpi r now).TakeTokens now).2, by simp⟩

/-- C10: in the `MemoryStore` the per-key limiter is built from the first
call's parameters for that key and then reused unchanged: on a fresh key the
stored limiter comes from the first call's parameters, and any later call on
that key behaves identically whatever window/limit (resp.
capacity/tokensPerInterval/refillRate) values it passes. -/
theorem memoryStore_first_call_params_win (ms : MemoryStore) (ip : String)
    (w1 l1 n1 w2 l2 n2 : Int) (c1 tpi1 c2 tpi2 : Int) (r1 b1 r2 b2 : Nat)
    (hw : ms.slidingWindowPerIP ip = none)
    (hb : ms.bucketPerIp ip = none) :
    (ms.AllowedSlidingWindow ip w1 l1 n1).2.slidingWindowPerIP ip =
      some ((NewSlidingWindowLimiter w1 l1).Allow n1).2 ∧
    ((ms.AllowedSlidingWindow ip w1 l1 n1).2.AllowedSlidingWindow ip w2 l2 n2) =
      ((ms.AllowedSlidingWindow ip w1 l1 n1).2.AllowedSlidingWindow ip w1 l1 n2) ∧
    (ms.AllowedTokenBucket ip c1 tpi1 r1 b1).2.bucketPerIp ip =
      some ((NewTokenBucket c1 tpi1 r1 b1).TakeTokens b1).2 ∧
    ((ms.AllowedTokenBucket ip c1 tpi1 r1 b1).2.AllowedTokenBucket ip c2 tpi2 r2 b2) =
      ((ms.AllowedTokenBucket ip c1 tpi1 r1 b1).2.AllowedTokenBucket ip c1 tpi1 r1 b2) := by
  refine ⟨?_, ?_, ?_, ?_⟩
  · unfold MemoryStore.AllowedSlidingWindow
    rw [hw]
    simp
  · obtain ⟨sw, hsw⟩ := allowedSlidingWindow_lookup_some ms ip w1 l1 n1
    exact allowedSlidingWindow_ignores_params _ _ _ hsw w2 l2 w1 l1 n2
  · unfold MemoryStore.AllowedTokenBucket
    rw [hb]
    simp
  · obtain ⟨tb, htb⟩ := allowedTokenBucket_lookup_some ms ip c1 tpi1 r1 b1
    exact allowedTokenBucket_ignores_params _ _ _ htb c2 tpi2 c1 tpi1 r2 r1 b2

/-- Witness for `memoryStore_first_call_params_win` on the empty store: the
limiter for key "a" is created with window 60, limit 1, and a second call
passing window 1, limit 100 is evaluated against the stored limiter. -/
theorem memoryStore_first_call_params_win_witness :
    NewMemoryStore.slidingWindowPerIP "a" = none ∧
    NewMemoryStore.bucketPerIp "a" = none ∧
    ((NewMemoryStore.AllowedSlidingWindow "a" 60 1 0).2.AllowedSlidingWindow
        "a" 1 100 0) =
      ((NewMemoryStore.AllowedSlidingWindow "a" 60 1 0).2.AllowedSlidingWindow
        "a" 60 1 0) := by
  have h := memoryStore_first_call_params_win NewMemoryStore "a"
    60 1 0 1 100 0 1 1 1 1 1 0 1 0 rfl rfl
  exact ⟨rfl, rfl, h.2.1⟩

/-! ## Risk engine (risk_engine.go, src/unnamed/part_008)

Per-IP score state; `scores` plays the role of the `ipScores` map (absent
entry = no record). `decayRate` is a duration in the same ticks as time. -/

structure RiskScore where
  score : Int
  lastUpdated : Nat
  deriving DecidableEq, Repr

structure RiskEngine where
  threshold : Int
  decayRate : Nat
  scores : String → Option RiskScore

/-- `RiskEngine.processEvent`: `LoadOrStore` a fresh zero record for the IP,
then decay by the number of whole `decayRate` intervals elapsed since
`lastUpdated`, floor at 0, add 1 for the denied event, persist
`(score, now)`, and return the new score. (The division is only meaningful
for `decayRate > 0`; see the guarded current engine below for the
`decayRate = 0` behavior.) -/
def RiskEngine.processEvent (e : RiskEngine) (ip : String) (now : Nat) :
    Int × RiskEngine :=
  let rs :=
    match e.scores ip with
    | some r => r
    | none => { score := 0, lastUpdated := now }
  let intervals : Int := ((now - rs.lastUpdated) / e.decayRate : Nat)
  let s0 := rs.score - intervals
  let s1 := if s0 < 0 then 0 else s0
  let s := s1 + 1
  (s, { e with scores :=
      fun k => if k = ip then some { score := s, lastUpdated := now }
               else e.scores k })

/-- Iterate `processEvent` for one IP, all events at the same instant. -/
def RiskEngine.runEvents (e : RiskEngine) (ip : String) (now : Nat) :
    Nat → RiskEngine
  | 0 => e
  | n + 1 => ((e.runEvents ip now n).processEvent ip now).2

theorem runEvents_scores (e : RiskEngine) (ip : String) (now : Nat)
    (h : e.scores ip = none) :
    ∀ n : Nat, 0 < n →
      (e.runEvents ip now n).scores ip = some { score := (n : Int), lastUpdated := now } := by
  intro n
  induction n with
  | zero => intro h0; exact absurd h0 (lt_irrefl 0)
  | succ n ih =>
    intro _
    rcases Nat.eq_zero_or_pos n with hn | hn
    · subst hn
      simp only [RiskEngine.runEvents, RiskEngine.processEvent, h]
      simp
    · have hprev := ih hn
      simp only [RiskEngine.runEvents, RiskEngine.processEvent, hprev]
      have hnn : ¬ ((n : Int) - ((now - now) / e.decayRate : Nat) < 0) := by
        simp
      simp only [Nat.sub_self, Nat.zero_div, Nat.cast_zero, sub_zero]
      have hge : ¬ ((n : Int) < 0) := by omega
      simp [hge]

theorem ite_neg_max (a : Int) : (if a < 0 then 0 else a) = max 0 a := by
  rcases lt_or_le a 0 with h | h
  · rw [if_pos h, max_eq_left (le_of_lt h)]
  · rw [if_neg (not_lt.mpr h), max_eq_right h]

/-- C3: `processEvent` performs exactly the decay-then-increment transition
`newScore = max(0, oldScore - floor(elapsed/decayRate)) + 1` and persists
`(newScore, now)`; the first event for a fresh actor yields score 1; `n`
events with no elapsed decay yield score `n`; after exactly `d` whole decay
intervals the score drops by `d` (floored at 0) before the `+1`; and an
event for one actor never changes another actor's stored state. -/
theorem riskEngine_decay_transition (e : RiskEngine) (ip : String) (now : Nat) :
    (∀ (s : Int) (lu : Nat),
      e.scores ip = some { score := s, lastUpdated := lu } → lu ≤ now →
      (e.processEvent ip now).1 =
        max 0 (s - (((now - lu) / e.decayRate : Nat) : Int)) + 1 ∧
      (e.processEvent ip now).2.scores ip =
        some { score := max 0 (s - (((now - lu) / e.decayRate : Nat) : Int)) + 1,
               lastUpdated := now }) ∧
    (e.scores ip = none →
      (e.processEvent ip now).1 = 1 ∧
      (e.processEvent ip now).2.scores ip = some { score := 1, lastUpdated := now }) ∧
    (∀ n : Nat, 0 < n → e.scores ip = none →
      (e.runEvents ip now n).scores ip = some { score := (n : Int), lastUpdated := now }) ∧
    (∀ (s : Int) (lu d : Nat), 0 < e.decayRate →
      e.scores ip = some { score := s, lastUpdated := lu } →
      (e.processEvent ip (lu + d * e.decayRate)).1 = max 0 (s - (d : Int)) + 1) ∧
    (∀ ip' : String, ip' ≠ ip →
      (e.processEvent ip now).2.scores ip' = e.scores ip') := by
  refine ⟨?_, ?_, ?_, ?_, ?_⟩
  · intro s lu hs _
    simp only [RiskEngine.processEvent, hs, ite_neg_max]
    constructor <;> simp
  · intro hnone
    simp only [RiskEngine.processEvent, hnone]
    constructor
    · simp
    · simp
  · intro n hn hnone
    exact runEvents_scores e ip now hnone n hn
  · intro s lu d hdr hs
    simp only [RiskEngine.processEvent, hs, ite_neg_max]
    have helapsed : (lu + d * e.decayRate) - lu = d * e.decayRate := by omega
    rw [helapsed, Nat.mul_div_cancel d hdr]
  · intro ip' hne
    simp only [RiskEngine.processEvent]
    simp [hne]

/-- Witness for `riskEngine_decay_transition`: the spec's concrete decay
scenario — `decayRate = 100` ticks, stored score 5 at time 0, a 6th event at
time 350 decays 3 steps and yields `5 - 3 + 1 = 3`. -/
theorem riskEngine_decay_transition_witness :
    ({ threshold := 10, decayRate := 100,
       scores := fun k => if k = "10.0.0.5" then
           some { score := 5, lastUpdated := 0 } else none } : RiskEngine).scores
        "10.0.0.5" = some { score := 5, lastUpdated := 0 } ∧
    (0 : Nat) ≤ 350 ∧
    (RiskEngine.processEvent
        { threshold := 10, decayRate := 100,
          scores := fun k => if k = "10.0.0.5" then
              some { score := 5, lastUpdated := 0 } else none }
        "10.0.0.5" 350).1 = 3 := by
  have h := (riskEngine_decay_transition
      { threshold := 10, decayRate := 100,
        scores := fun k => if k = "10.0.0.5" then
            some { score := 5, lastUpdated := 0 } else none }
      "10.0.0.5" 350).1 5 0 (by simp) (by omega)
  refine ⟨by simp, by omega, ?_⟩
  rw [h.1]
  decide

/-! ## Current risk engine (modelled from the spec)

The current test file risk_engine_test.go (src/unnamed/part_004) reads
`score, shouldNotify := engine.processEvent(event)` — a two-value return
with a once-per-excursion notification flag — and
`TestRiskScoreZeroDecayRate` exercises `decayRate = 0` without a failure.
The implementation those tests compile against is not among the provided
source files: src/unnamed/part_008 holds an older revision whose
`processEvent` returns only the score, notifies level-triggered from
`EventReader`, and divides by `decayRate` unguarded. The definitions below
model the current engine from the spec (§4.4). -/

/-- Modelled from the spec: `decaySteps = floor(elapsed / decayRate)`; if
`decayRate == 0`, decay is disabled — treat `decaySteps = 0`. -/
def decaySteps (decayRate elapsed : Nat) : Nat :=
  if decayRate = 0 then 0 else elapsed / decayRate

theorem decaySteps_zero (elapsed : Nat) : decaySteps 0 elapsed = 0 := by
  unfold decaySteps
  simp

theorem decaySteps_elapsed_zero (d : Nat) : decaySteps d 0 = 0 := by
  unfold decaySteps
  split <;> simp

structure RiskScoreN where
  score : Int
  lastUpdated : Nat
  notified : Bool
  deriving DecidableEq, Repr

structure RiskEngineN where
  threshold : Int
  decayRate : Nat
  scores : String → Option RiskScoreN

/-- A fresh engine: no actor has a record (absent record = score 0). -/
def NewRiskEngine (threshold : Int) (decayRate : Nat) : RiskEngineN :=
  { threshold := threshold, decayRate := decayRate, scores := fun _ => none }

/-- Modelled from the spec: the current `processEvent` (absent from the
provided sources; only its tests are, src/unnamed/part_004). It applies the
decay-then-increment transition `score = max(0, score - decaySteps) + 1`
through the guarded `decaySteps`, persists `(score, now)`, and returns
alongside the score whether this update is the first time the score exceeds
`threshold` — edge-triggered via the `notified` flag, which is set exactly
once per excursion and never reset in the reference. -/
def RiskEngineN.processEvent (e : RiskEngineN) (ip : String) (now : Nat) :
    (Int × Bool) × RiskEngineN :=
  let rs :=
    match e.scores ip with
    | some r => r
    | none => { score := 0, lastUpdated := now, notified := false }
  let steps := decaySteps e.decayRate (now - rs.lastUpdated)
  let s := max 0 (rs.score - (steps : Int)) + 1
  let crossed := decide (e.threshold < s) && !rs.notified
  ((s, crossed),
   { e with scores :=
      fun k => if k = ip then
          some { score := s, lastUpdated := now, notified := rs.notified || crossed }
        else e.scores k })

/-- Modelled from the spec: the current `GetScore` — a pure read applying the
same guarded decay formula without mutating stored state. -/
def RiskEngineN.GetScore (e : RiskEngineN) (ip : String) (now : Nat) : Int :=
  match e.scores ip with
  | none => 0
  | some rs =>
    let current := rs.score - (decaySteps e.decayRate (now - rs.lastUpdated) : Int)
    if current < 0 then 0 else current

/-- Iterate `processEvent` for one IP, all events at the same instant
(no intervening decay). -/
def RiskEngineN.runEvents (e : RiskEngineN) (ip : String) (now : Nat) :
    Nat → RiskEngineN
  | 0 => e
  | n + 1 => ((e.runEvents ip now n).processEvent ip now).2

/-- The crossed-threshold flag returned by event number `n + 1` (after `n`
earlier events at the same instant). -/
def RiskEngineN.flagAt (e : RiskEngineN) (ip : String) (now : Nat) (n : Nat) : Bool :=
  (((e.runEvents ip now n).processEvent ip now).1).2

/-- Iterate `processEvent` for one IP at the given sequence of times. -/
def RiskEngineN.runSeq (e : RiskEngineN) (ip : String) : List Nat → RiskEngineN
  | [] => e
  | tm :: ts => ((e.processEvent ip tm).2).runSeq ip ts

theorem processEventN_threshold (e : RiskEngineN) (ip : String) (now : Nat) :
    ((e.processEvent ip now).2).threshold = e.threshold := rfl

theorem runEventsN_threshold (e : RiskEngineN) (ip : String) (now : Nat) :
    ∀ n : Nat, (e.runEvents ip now n).threshold = e.threshold := by
  intro n
  induction n with
  | zero => rfl
  | succ n ih => exact ih

theorem runEventsN_scores (t : Int) (d : Nat) (ip : String) (now : Nat) :
    ∀ n : Nat, 0 < n →
      ((NewRiskEngine t d).runEvents ip now n).scores ip =
        some { score := (n : Int), lastUpdated := now,
               notified := decide (t < (n : Int)) } := by
  intro n
  induction n with
  | zero => intro h0; exact absurd h0 (lt_irrefl 0)
  | succ n ih =>
    intro _
    rcases Nat.eq_zero_or_pos n with hn | hn
    · subst hn
      simp only [RiskEngineN.runEvents, RiskEngineN.processEvent, NewRiskEngine,
        Nat.sub_self, decaySteps_elapsed_zero]
      simp
    · have hprev := ih hn
      have hthr : ((NewRiskEngine t d).runEvents ip now n).threshold = t :=
        runEventsN_threshold (NewRiskEngine t d) ip now n
      simp only [RiskEngineN.runEvents, RiskEngineN.processEvent, hprev, hthr,
        Nat.sub_self, decaySteps_elapsed_zero, Nat.cast_zero, sub_zero]
      have hmax' : max 0 (n : Int) = (n : Int) := max_eq_right (Int.natCast_nonneg n)
      rw [hmax']
      have hb : (decide (t < (n : Int)) ||
          (decide (t < (n : Int) + 1) && !decide (t < (n : Int))))
          = decide (t < (n : Int) + 1) := by
        by_cases h1 : t < (n : Int)
        · have h2 : t < (n : Int) + 1 := by omega
          simp [h1, h2]
        · simp [h1]
      simp [hb]

/-- C1 (modelled current engine): feeding consecutive same-instant denial
events for one actor to a fresh engine, the crossed-threshold flag returned
by event `n + 1` is true precisely when `n = threshold`: it fires exactly
once, on the event where the score first exceeds the threshold
(event `threshold + 1`), and every later event while the score stays above
the threshold returns `false`, so no further notification is triggered. -/
theorem riskEngineN_edge_triggered (t d : Nat) (ip : String) (now n : Nat) :
    (NewRiskEngine (t : Int) d).flagAt ip now n = decide (n = t) := by
  unfold RiskEngineN.flagAt
  rcases Nat.eq_zero_or_pos n with hn | hn
  · subst hn
    show (((NewRiskEngine (t : Int) d).processEvent ip now).1).2 = decide (0 = t)
    simp only [RiskEngineN.processEvent, NewRiskEngine, Nat.sub_self,
      decaySteps_elapsed_zero, Nat.cast_zero, sub_zero, max_self, zero_add,
      Bool.not_false, Bool.and_true]
    rw [decide_eq_decide]
    omega
  · have hprev := runEventsN_scores (t : Int) d ip now n hn
    have hthr := runEventsN_threshold (NewRiskEngine (t : Int) d) ip now n
    have hthr2 : (NewRiskEngine ((t : Nat) : Int) d).threshold = ((t : Nat) : Int) := rfl
    simp only [RiskEngineN.processEvent, hprev, hthr, hthr2, Nat.sub_self,
      decaySteps_elapsed_zero, Nat.cast_zero, sub_zero]
    have hmax' : max 0 (n : Int) = (n : Int) := max_eq_right (Int.natCast_nonneg n)
    rw [hmax']
    by_cases h1 : ((t : Nat) : Int) < (n : Int)
    · have hne : n ≠ t := by omega
      simp [h1, hne]
    · by_cases h2 : ((t : Nat) : Int) < (n : Int) + 1
      · have heq : n = t := by omega
        simp [h1, h2, heq]
      · have hne : n ≠ t := by omega
        simp [h1, h2, hne]

theorem runSeqN_decayRate (ip : String) :
    ∀ (ts : List Nat) (e : RiskEngineN), (e.runSeq ip ts).decayRate = e.decayRate := by
  intro ts
  induction ts with
  | nil => intro e; rfl
  | cons tm ts ih => intro e; exact ih _

theorem runSeqN_score (ip : String) :
    ∀ (ts : List Nat) (e : RiskEngineN), e.decayRate = 0 →
      ∀ (s : Int) (lu : Nat) (b : Bool),
        e.scores ip = some { score := s, lastUpdated := lu, notified := b } →
        0 ≤ s →
        ∃ (lu' : Nat) (b' : Bool),
          (e.runSeq ip ts).scores ip =
            some { score := s + ts.length, lastUpdated := lu', notified := b' } := by
  intro ts
  induction ts with
  | nil =>
    intro e _ s lu b hs _
    exact ⟨lu, b, by simpa using hs⟩
  | cons tm ts ih =>
    intro e hd s lu b hs hnn
    have hstep : (e.processEvent ip tm).2.scores ip =
        some { score := s + 1, lastUpdated := tm,
               notified := b || (decide (e.threshold < s + 1) && !b) } := by
      simp only [RiskEngineN.processEvent, hs, hd, decaySteps_zero,
        Nat.cast_zero, sub_zero]
      rw [max_eq_right hnn]
      simp
    have hd' : (e.processEvent ip tm).2.decayRate = 0 := hd
    obtain ⟨lu', b', hres⟩ := ih _ hd' (s + 1) tm _ hstep (by omega)
    refine ⟨lu', b', ?_⟩
    have hiter : e.runSeq ip (tm :: ts) = ((e.processEvent ip tm).2).runSeq ip ts := rfl
    rw [hiter, hres, List.length_cons]
    have hsc : s + 1 + (ts.length : Int) = s + ((ts.length + 1 : Nat) : Int) := by
      push_cast; ring
    rw [hsc]

theorem getScoreN_zero_decay (e : RiskEngineN) (ip : String) (now : Nat)
    (s : Int) (lu : Nat) (b : Bool) (hd : e.decayRate = 0)
    (hs : e.scores ip = some { score := s, lastUpdated := lu, notified := b })
    (hnn : 0 ≤ s) : e.GetScore ip now = s := by
  simp only [RiskEngineN.GetScore, hs, hd, decaySteps_zero, Nat.cast_zero, sub_zero]
  rw [if_neg (not_lt.mpr hnn)]

/-- C2 (modelled current engine): with `decayRate = 0` decay is disabled and
nothing else changes, with no division-by-zero failure: `decaySteps` is 0
for every elapsed time, `processEvent` adds 1 to the stored score and a run
of `1 + ts.length` events at arbitrary times accumulates exactly that count,
and `GetScore` returns the stored score unchanged at every read time. -/
theorem riskEngineN_zero_decay_safe (t : Int) (ip : String) (tm now : Nat)
    (ts : List Nat) (e : RiskEngineN) (s : Int) (lu : Nat) (b : Bool)
    (hd : e.decayRate = 0)
    (hs : e.scores ip = some { score := s, lastUpdated := lu, notified := b })
    (hnn : 0 ≤ s) :
    (∀ elapsed : Nat, decaySteps 0 elapsed = 0) ∧
    ((e.processEvent ip now).1).1 = s + 1 ∧
    e.GetScore ip now = s ∧
    (((NewRiskEngine t 0).processEvent ip tm).2.runSeq ip ts).GetScore ip now
      = 1 + ts.length := by
  refine ⟨decaySteps_zero, ?_, ?_, ?_⟩
  · simp only [RiskEngineN.processEvent, hs, hd, decaySteps_zero,
      Nat.cast_zero, sub_zero]
    rw [max_eq_right hnn]
  · exact getScoreN_zero_decay e ip now s lu b hd hs hnn
  · have hfresh : ((NewRiskEngine t 0).processEvent ip tm).2.scores ip =
        some { score := 1, lastUpdated := tm, notified := decide (t < 1) } := by
      simp only [RiskEngineN.processEvent, NewRiskEngine, Nat.sub_self,
        decaySteps_elapsed_zero, Nat.cast_zero, sub_zero, max_self, zero_add]
      simp
    have hd1 : ((NewRiskEngine t 0).processEvent ip tm).2.decayRate = 0 := rfl
    obtain ⟨lu', b', hres⟩ := runSeqN_score ip ts _ hd1 1 tm _ hfresh (by omega)
    have hd2 : (((NewRiskEngine t 0).processEvent ip tm).2.runSeq ip ts).decayRate = 0 := by
      rw [runSeqN_decayRate]
      exact hd1
    exact getScoreN_zero_decay _ ip now _ lu' b' hd2 hres (by positivity)

/-- Witness for `riskEngineN_zero_decay_safe`: a stored score of 5 with
`decayRate = 0` gives `processEvent` result 6 and `GetScore` 5, and a fresh
actor accumulates `1 + 3 = 4` over four events at scattered times. -/
theorem riskEngineN_zero_decay_safe_witness :
    ({ threshold := 10, decayRate := 0,
       scores := fun k => if k = "a" then
           some { score := 5, lastUpdated := 0, notified := false } else none }
        : RiskEngineN).decayRate = 0 ∧
    (0 : Int) ≤ 5 ∧
    ((({ threshold := 10, decayRate := 0,
         scores := fun k => if k = "a" then
             some { score := 5, lastUpdated := 0, notified := false } else none }
        : RiskEngineN).processEvent "a" 7).1).1 = 6 ∧
    ({ threshold := 10, decayRate := 0,
       scores := fun k => if k = "a" then
           some { score := 5, lastUpdated := 0, notified := false } else none }
        : RiskEngineN).GetScore "a" 7 = 5 ∧
    (((NewRiskEngine 10 0).processEvent "a" 0).2.runSeq "a" [1, 2, 3]).GetScore
        "a" 7 = 1 + ([1, 2, 3] : List Nat).length := by
  have h := riskEngineN_zero_decay_safe 10 "a" 0 7 [1, 2, 3]
    { threshold := 10, decayRate := 0,
      scores := fun k => if k = "a" then
          some { score := 5, lastUpdated := 0, notified := false } else none }
    5 0 false rfl (by simp) (by omega)
  exact ⟨rfl, by omega, h.2.1, h.2.2.1, h.2.2.2⟩

/-! ## Policy composition middleware (modelled from the spec)

The middleware revision exercised by middleware_test.go and
src/unnamed/part_012 — a `Config` carrying a score reader and `DenyScore`,
zero-valued algorithms skipped, risk-scaled limits, and a 403 risk denial —
is not among the provided source files: src/unnamed/part_003 holds an older
revision with neither feature. It is modelled from the spec (§4.5, §7)
below; the presence of a configured score reader is represented by passing
`some score`. -/

inductive Decision where
  | allowed
  | deniedWindow
  | deniedBucket
  | deniedRisk
  deriving DecidableEq, Repr

/-- HTTP status code of each decision: risk denial is 403 Forbidden,
ordinary rate-limit denial is 429 Too Many Requests. -/
def Decision.statusCode : Decision → Nat
  | .allowed => 200
  | .deniedWindow => 429
  | .deniedBucket => 429
  | .deniedRisk => 403

structure Config where
  Window : Int
  Limit : Int
  Capacity : Int
  TokensPerInterval : Int
  RefillRate : Nat
  DenyScore : Int
  deriving DecidableEq, Repr

/-- Modelled from the spec: `factor = max(0.1, 1 - score/denyScore)`. -/
def riskFactor (score denyScore : Int) : Rat :=
  max (1 / 10 : Rat) (1 - (score : Rat) / (denyScore : Rat))

/-- Modelled from the spec: scale a base value by the risk factor with a
floor of 1, except that a base value of 0 stays 0 — a risk adjustment never
activates an algorithm the operator disabled. -/
def scaleValue (base : Int) (factor : Rat) : Int :=
  if base = 0 then 0 else max 1 (Rat.floor ((base : Rat) * factor))

/-- Modelled from the spec: the effective per-request config under a risk
score below the deny threshold. -/
def adjustConfig (cfg : Config) (score : Int) : Config :=
  { cfg with
    Limit := scaleValue cfg.Limit (riskFactor score cfg.DenyScore),
    Capacity := scaleValue cfg.Capacity (riskFactor score cfg.DenyScore) }

/-- Modelled from the spec and middleware_test.go: run sliding window then
token bucket against the store, skipping an algorithm whose configured
value is zero (a configuration contradiction is treated as "algorithm
disabled", not an error and not a deny-everything rule). -/
def baseChecks (cfg : Config) (ms : MemoryStore) (ip : String) (now : Nat) :
    Decision × MemoryStore :=
  let wres :=
    if cfg.Limit = 0 then (true, ms)
    else ms.AllowedSlidingWindow ip cfg.Window cfg.Limit (now : Int)
  if !wres.1 then (.deniedWindow, wres.2)
  else
    let bres :=
      if cfg.Capacity = 0 then (true, wres.2)
      else wres.2.AllowedTokenBucket ip cfg.Capacity cfg.TokensPerInterval
        cfg.RefillRate now
    if !bres.1 then (.deniedBucket, bres.2)
    else (.allowed, bres.2)

/-- Modelled from the spec: the current `RateLimiterMiddleware` — when a
risk score is present and a deny threshold is configured, a score at or
above `DenyScore` is rejected immediately (bypassing both algorithms);
otherwise the base values are risk-scaled before the checks. -/
def RateLimiterMiddleware (cfg : Config) (score : Option Int)
    (ms : MemoryStore) (ip : String) (now : Nat) : Decision × MemoryStore :=
  match score with
  | none => baseChecks cfg ms ip now
  | some s =>
    if 0 < cfg.DenyScore then
      if cfg.DenyScore ≤ s then (.deniedRisk, ms)
      else baseChecks (adjustConfig cfg s) ms ip now
    else baseChecks cfg ms ip now

/-- C9: configuration contradictions disable the algorithm instead of
erroring or denying: under the all-zero config every request is admitted
with the store untouched (so every request of any sequence passes), and
when exactly one algorithm's values are zero the other algorithm alone
decides admission. -/
theorem middleware_zero_config_disables (cfg : Config) (ms : MemoryStore)
    (ip : String) (now : Nat) :
    (cfg.Limit = 0 → cfg.Capacity = 0 →
      RateLimiterMiddleware cfg none ms ip now = (.allowed, ms)) ∧
    (cfg.Capacity = 0 → cfg.Limit ≠ 0 →
      RateLimiterMiddleware cfg none ms ip now =
        (if (ms.AllowedSlidingWindow ip cfg.Window cfg.Limit (now : Int)).1
           then Decision.allowed else Decision.deniedWindow,
         (ms.AllowedSlidingWindow ip cfg.Window cfg.Limit (now : Int)).2)) ∧
    (cfg.Limit = 0 → cfg.Capacity ≠ 0 →
      RateLimiterMiddleware cfg none ms ip now =
        (if (ms.AllowedTokenBucket ip cfg.Capacity cfg.TokensPerInterval
              cfg.RefillRate now).1
           then Decision.allowed else Decision.deniedBucket,
         (ms.AllowedTokenBucket ip cfg.Capacity cfg.TokensPerInterval
            cfg.RefillRate now).2)) := by
  refine ⟨?_, ?_, ?_⟩
  · intro hl hc
    simp [RateLimiterMiddleware, baseChecks, hl, hc]
  · intro hc hl
    simp only [RateLimiterMiddleware, baseChecks, hc, hl, if_neg hl, if_true]
    by_cases hw : (ms.AllowedSlidingWindow ip cfg.Window cfg.Limit (now : Int)).1
    · simp [hw]
    · simp [hw]
  · intro hl hc
    simp only [RateLimiterMiddleware, baseChecks, hl, hc, if_true]
    by_cases hb : (ms.AllowedTokenBucket ip cfg.Capacity cfg.TokensPerInterval
        cfg.RefillRate now).1
    · simp [hl, hc, hb]
    · simp [hl, hc, hb]

/-- Witness for `middleware_zero_config_disables`: the all-zero config
admits a request on the empty store unchanged, and with only the token
bucket configured (`Limit = 0`, `Capacity = 2`) the decision is exactly the
bucket's. -/
theorem middleware_zero_config_disables_witness :
    ((⟨0, 0, 0, 0, 0, 0⟩ : Config).Limit = 0 ∧
      (⟨0, 0, 0, 0, 0, 0⟩ : Config).Capacity = 0 ∧
      RateLimiterMiddleware ⟨0, 0, 0, 0, 0, 0⟩ none NewMemoryStore "" 5 =
        (.allowed, NewMemoryStore)) ∧
    RateLimiterMiddleware ⟨60, 0, 2, 0, 1, 0⟩ none NewMemoryStore "" 5 =
      (if (NewMemoryStore.AllowedTokenBucket "" 2 0 1 5).1
         then Decision.allowed else Decision.deniedBucket,
       (NewMemoryStore.AllowedTokenBucket "" 2 0 1 5).2) := by
  have h0 := middleware_zero_config_disables ⟨0, 0, 0, 0, 0, 0⟩
    NewMemoryStore "" 5
  have h1 := middleware_zero_config_disables ⟨60, 0, 2, 0, 1, 0⟩
    NewMemoryStore "" 5
  exact ⟨⟨rfl, rfl, h0.1 rfl rfl⟩, h1.2.2 rfl (by decide)⟩

/-- C8: policy composition under a risk score. With a deny threshold
configured, a score at or above `DenyScore` is rejected immediately as
`deniedRisk` with the store untouched (both algorithms bypassed regardless
of remaining budget), and that decision's status code 403 is distinct from
the 429 of ordinary rate-limit denials; a score below the threshold runs
the base checks with `Limit` and `Capacity` scaled by
`factor = max(0.1, 1 - score/denyScore)` floored at 1 — except that a base
value of 0 stays 0 under every score. -/
theorem middleware_risk_composition (cfg : Config) (ms : MemoryStore)
    (ip : String) (now : Nat) (s : Int) (hdeny : 0 < cfg.DenyScore) :
    (cfg.DenyScore ≤ s →
      RateLimiterMiddleware cfg (some s) ms ip now = (.deniedRisk, ms)) ∧
    Decision.statusCode .deniedRisk = 403 ∧
    Decision.statusCode .deniedWindow = 429 ∧
    Decision.statusCode .deniedBucket = 429 ∧
    (s < cfg.DenyScore →
      RateLimiterMiddleware cfg (some s) ms ip now =
        baseChecks (adjustConfig cfg s) ms ip now) ∧
    (adjustConfig cfg s).Limit =
      (if cfg.Limit = 0 then 0
       else max 1 (Rat.floor ((cfg.Limit : Rat) *
         max (1 / 10 : Rat) (1 - (s : Rat) / (cfg.DenyScore : Rat))))) ∧
    (adjustConfig cfg s).Capacity =
      (if cfg.Capacity = 0 then 0
       else max 1 (Rat.floor ((cfg.Capacity : Rat) *
         max (1 / 10 : Rat) (1 - (s : Rat) / (cfg.DenyScore : Rat))))) ∧
    (∀ s' : Int, cfg.Capacity = 0 → (adjustConfig cfg s').Capacity = 0) ∧
    (∀ s' : Int, cfg.Limit = 0 → (adjustConfig cfg s').Limit = 0) := by
  refine ⟨?_, rfl, rfl, rfl, ?_, ?_, ?_, ?_, ?_⟩
  · intro hge
    simp [RateLimiterMiddleware, hdeny, hge]
  · intro hlt
    simp [RateLimiterMiddleware, hdeny, not_le.mpr hlt]
  · rfl
  · rfl
  · intro s' hc
    simp [adjustConfig, scaleValue, hc]
  · intro s' hl
    simp [adjustConfig, scaleValue, hl]

/-- Witness for `middleware_risk_composition`, following the middleware risk
tests: with `DenyScore = 10` a score of 10 yields an immediate risk denial
on an untouched store, and with score 5 the disabled bucket
(`Capacity = 0`) stays disabled while `Limit = 10` is scaled to 5. -/
theorem middleware_risk_composition_witness :
    (0 : Int) < (⟨60, 10, 0, 0, 1, 10⟩ : Config).DenyScore ∧
    (⟨60, 10, 0, 0, 1, 10⟩ : Config).DenyScore ≤ 10 ∧
    RateLimiterMiddleware ⟨60, 10, 0, 0, 1, 10⟩ (some 10) NewMemoryStore "" 0 =
      (.deniedRisk, NewMemoryStore) ∧
    (adjustConfig ⟨60, 10, 0, 0, 1, 10⟩ 5).Capacity = 0 ∧
    (adjustConfig ⟨60, 10, 0, 0, 1, 10⟩ 5).Limit = 5 := by
  have h := middleware_risk_composition ⟨60, 10, 0, 0, 1, 10⟩
    NewMemoryStore "" 0 10 (by decide)
  have h5 := middleware_risk_composition ⟨60, 10, 0, 0, 1, 10⟩
    NewMemoryStore "" 0 5 (by decide)
  refine ⟨by decide, by decide, h.1 (by decide), h5.2.2.2.2.2.2.2.1 5 rfl, ?_⟩
  rw [h5.2.2.2.2.2.1]
  rw [if_neg (by norm_num)]
  have hmax : max (1 / 10 : Rat)
      (1 - ((5 : Int) : Rat) / (((⟨60, 10, 0, 0, 1, 10⟩ : Config).DenyScore : Int) : Rat))
      = 1 / 2 := by
    rw [max_eq_right (by norm_num)]
    norm_num
  rw [hmax]
  have hprod : (((⟨60, 10, 0, 0, 1, 10⟩ : Config).Limit : Int) : Rat) * (1 / 2) = 5 := by
    norm_num
  rw [hprod]
  have hfl : Rat.floor (5 : Rat) = 5 := rfl
  rw [hfl]
  norm_num
